import Mathlib

/-!
Verification of the objecthash canonical encoding (`src/types.rs`).

Bytes are modelled as `Nat` (the values absorbed by the hasher are always
in `0..256` in the real program).  The cryptographic digest primitive and
the Unicode NFC normalizer are external collaborators of the crate; they
are taken as abstract functions `D, nfc : List Nat → List Nat`.
-/

namespace ObjectHash

/-! ### Decimal ASCII rendering of integers (model of Rust `to_string`) -/

/-- Little-endian decimal digits of `n`, computed with explicit fuel so the
definition is structural.  `decDigitsAux fuel n` is correct when `n ≤ fuel`. -/
def decDigitsAux : Nat → Nat → List Nat
  | 0, _ => []
  | _ + 1, 0 => []
  | fuel + 1, n + 1 => ((n + 1) % 10) :: decDigitsAux fuel ((n + 1) / 10)

/-- Little-endian decimal digits of `n` (empty for `0`). -/
def decDigits (n : Nat) : List Nat := decDigitsAux n n

/-- ASCII bytes of the decimal representation of a natural number, as produced
by Rust's `to_string` on an unsigned integer: most-significant digit first,
no leading zeros, and the single byte `'0'` for zero. -/
def natToDecimal (n : Nat) : List Nat :=
  if n = 0 then [48] else ((decDigits n).map (· + 48)).reverse

/-- ASCII bytes of the decimal representation of an integer, as produced by
Rust's `to_string`: a leading `'-'` byte exactly for negative values. -/
def intToDecimal (i : Int) : List Nat :=
  if i < 0 then 45 :: natToDecimal i.natAbs else natToDecimal i.natAbs

/-! ### Lexicographic unsigned byte comparison (model of `Vec<u8>` ordering) -/

/-- Lexicographic comparison of byte strings, exactly the `Ord` instance Rust
uses when sorting `Vec<Vec<u8>>`: compare bytes as unsigned values position by
position; a strict prefix is smaller. -/
def lexLe : List Nat → List Nat → Bool
  | [], _ => true
  | _ :: _, [] => false
  | a :: as, b :: bs => if a < b then true else if b < a then false else lexLe as bs

/-- `byteLe` is `lexLe` as a proposition, for use with Mathlib's sorting. -/
def byteLe (a b : List Nat) : Prop := lexLe a b = true

instance : DecidableRel byteLe := fun a b => by unfold byteLe; infer_instance

instance : IsTotal (List Nat) byteLe where
  total := by
    intro a
    induction a with
    | nil => intro b; left; rfl
    | cons x as ih =>
      intro b
      match b with
      | [] => right; rfl
      | y :: bs =>
        by_cases hxy : x < y
        · left; simp [byteLe, lexLe, hxy]
        · by_cases hyx : y < x
          · right; simp [byteLe, lexLe, hyx, Nat.lt_asymm hyx]
          · have hxy' : x = y := Nat.le_antisymm (Nat.le_of_not_lt hyx) (Nat.le_of_not_lt hxy)
            subst hxy'
            rcases ih bs with h | h
            · left; simpa [byteLe, lexLe] using h
            · right; simpa [byteLe, lexLe] using h

instance : IsTrans (List Nat) byteLe where
  trans := by
    intro a
    induction a with
    | nil => intro b c _ _; rfl
    | cons x as ih =>
      intro b c hab hbc
      match b, c with
      | [], _ => exact absurd hab (by simp [byteLe, lexLe])
      | _ :: _, [] => exact absurd hbc (by simp [byteLe, lexLe])
      | y :: bs, z :: cs =>
        simp only [byteLe, lexLe] at hab hbc ⊢
        by_cases hxy : x < y
        · by_cases hyz : y < z
          · simp [Nat.lt_trans hxy hyz]
          · by_cases hzy : z < y
            · simp only [hyz, if_false, hzy, if_true] at hbc
              cases hbc
            · have : y = z := Nat.le_antisymm (Nat.le_of_not_lt hzy) (Nat.le_of_not_lt hyz)
              subst this
              simp [hxy]
        · by_cases hyx : y < x
          · simp only [hxy, if_false, hyx, if_true] at hab
            cases hab
          · have hxy' : x = y := Nat.le_antisymm (Nat.le_of_not_lt hyx) (Nat.le_of_not_lt hxy)
            subst hxy'
            by_cases hyz : x < z
            · simp [hyz]
            · by_cases hzy : z < x
              · simp only [hyz, if_false, hzy, if_true] at hbc
                cases hbc
              · have : x = z := Nat.le_antisymm (Nat.le_of_not_lt hzy) (Nat.le_of_not_lt hyz)
                subst this
                simp only [Nat.lt_irrefl, if_false] at hab hbc ⊢
                exact ih bs cs hab hbc

instance : IsAntisymm (List Nat) byteLe where
  antisymm := by
    intro a
    induction a with
    | nil =>
      intro b _ hba
      match b with
      | [] => rfl
      | _ :: _ => exact absurd hba (by simp [byteLe, lexLe])
    | cons x as ih =>
      intro b hab hba
      match b with
      | [] => exact absurd hab (by simp [byteLe, lexLe])
      | y :: bs =>
        simp only [byteLe, lexLe] at hab hba
        by_cases hxy : x < y
        · simp only [Nat.lt_asymm hxy, if_false, hxy, if_true] at hba
          cases hba
        · by_cases hyx : y < x
          · simp only [hxy, if_false, hyx, if_true] at hab
            cases hab
          · have hxy' : x = y := Nat.le_antisymm (Nat.le_of_not_lt hyx) (Nat.le_of_not_lt hxy)
            subst hxy'
            simp only [Nat.lt_irrefl, if_false] at hab hba
            rw [ih bs hab hba]

/-! ### The hasher abstraction

Modelled from the spec: the `ObjectHasher` trait and the `hasher` module are
declared outside `src/types.rs`; §4.1 of the design specifies `absorb` (called
`update` in the code), `absorb_nested` (`update_nested`) and `finish`.  The
state records the byte transcript absorbed so far; `finish` applies the
abstract digest primitive `D` to the transcript. -/

/-- Hash state: the sequence of bytes absorbed so far. -/
structure Hasher where
  absorbed : List Nat
deriving DecidableEq

/-- A fresh hasher, as produced by `hasher::default()`. -/
def Hasher.init : Hasher := ⟨[]⟩

/-- Modelled from the spec: `absorb(bytes)` appends raw bytes into the running
digest state, in call order (spec §4.1); `update` in the code. -/
def Hasher.update (h : Hasher) (bytes : List Nat) : Hasher :=
  ⟨h.absorbed ++ bytes⟩

/-- Modelled from the spec: `finish()` finalizes the state to the fixed-length
digest, here by applying the abstract digest primitive `D` to the transcript. -/
def Hasher.finish (D : List Nat → List Nat) (h : Hasher) : List Nat :=
  D h.absorbed

/-- Modelled from the spec: `absorb_nested(producer)` runs `producer` on a
fresh hasher, finalizes it, and absorbs the resulting digest bytes — not the
original content — into the current hasher (spec §4.1); `update_nested` in the
code. -/
def Hasher.updateNested (D : List Nat → List Nat) (h : Hasher)
    (producer : Hasher → Hasher) : Hasher :=
  h.update ((producer Hasher.init).finish D)

/-! ### The canonical encoders of `src/types.rs`

Each Rust `impl ObjectHash for T` is one Lean function `Hasher → Hasher`.
The four type tags are the bytes `'i' = 105`, `'u' = 117`, `'l' = 108`,
`'d' = 100` (`INTEGER_TAG`, `STRING_TAG`, `LIST_TAG`, `DICT_TAG`). -/

def INTEGER_TAG : List Nat := [105]
def STRING_TAG : List Nat := [117]
def LIST_TAG : List Nat := [108]
def DICT_TAG : List Nat := [100]

/-- `impl ObjectHash for Vec<T>`: absorb `LIST_TAG`, then for each element in
order one `update_nested` running the element's own `objecthash` (given here
as `elem : α → Hasher → Hasher`, the `T: ObjectHash` dictionary). -/
def objecthash_vec (D : List Nat → List Nat) (elem : α → Hasher → Hasher)
    (l : List α) (hasher : Hasher) : Hasher :=
  l.foldl (fun h v => h.updateNested D (fun hh => elem v hh)) (hasher.update LIST_TAG)

/-- Modelled from the spec: the `objecthash_member!` macro is declared outside
`src/types.rs`; §4.3 step 1 specifies the entry digest: `absorb_nested` the
key's full encoding and `absorb_nested` the value's full encoding into one
shared nested hasher instance, then finalize it. -/
def objecthash_member (D : List Nat → List Nat) (ek : κ → Hasher → Hasher)
    (ev : ν → Hasher → Hasher) (k : κ) (v : ν) : List Nat :=
  (((Hasher.init.updateNested D (fun hh => ek k hh)).updateNested D
      (fun hh => ev v hh))).finish D

/-- `impl ObjectHash for HashMap<K, V, S>`: absorb `DICT_TAG`, compute one
entry digest per `(k, v)` pair via `objecthash_member!`, sort the digests (the
`Ord` on `Vec<u8>` is unsigned-byte lexicographic), then absorb each sorted
digest directly with `update`.  The list `entries` is the sequence the map's
`iter()` happens to enumerate; its order is unspecified.  Rust's `sort` is
modelled by insertion sort under `byteLe`: both are characterized as the
sorted permutation of the input, unique because `byteLe` is total,
transitive and antisymmetric. -/
def objecthash_hashmap (D : List Nat → List Nat) (ek : κ → Hasher → Hasher)
    (ev : ν → Hasher → Hasher) (entries : List (κ × ν)) (hasher : Hasher) : Hasher :=
  let digests := entries.map (fun p => objecthash_member D ek ev p.1 p.2)
  (digests.insertionSort byteLe).foldl (fun h d => h.update d) (hasher.update DICT_TAG)

/-- `impl ObjectHash for str`: NFC-normalize, then absorb `STRING_TAG`
followed by the normalized UTF-8 bytes (the `objecthash_digest!` macro).
`nfc` is the abstract composite "decode UTF-8, NFC-normalize, re-encode"
provided by the external `unicode_normalization` crate. -/
def objecthash_str (nfc : List Nat → List Nat) (s : List Nat)
    (hasher : Hasher) : Hasher :=
  (hasher.update STRING_TAG).update (nfc s)

/-- `impl ObjectHash for String`: same body as the `str` impl. -/
def objecthash_string (nfc : List Nat → List Nat) (s : List Nat)
    (hasher : Hasher) : Hasher :=
  (hasher.update STRING_TAG).update (nfc s)

/-- Body of the `impl_inttype!` macro: absorb `INTEGER_TAG` followed by the
ASCII bytes of `self.to_string()` (the `objecthash_digest!` macro). -/
def objecthash_int (i : Int) (hasher : Hasher) : Hasher :=
  (hasher.update INTEGER_TAG).update (intToDecimal i)

/-! ### The ten `impl_inttype!` instances

`impl_inttype!` stamps out one `impl ObjectHash for $inttype` per primitive
integer type, each with the same body.  A Rust value of such a type is an
integer in the type's range; `isize`/`usize` are 64-bit on the reference
platform. -/

def objecthash_i8 (i : Int) (hasher : Hasher) : Hasher :=
  (hasher.update INTEGER_TAG).update (intToDecimal i)

def objecthash_i16 (i : Int) (hasher : Hasher) : Hasher :=
  (hasher.update INTEGER_TAG).update (intToDecimal i)

def objecthash_i32 (i : Int) (hasher : Hasher) : Hasher :=
  (hasher.update INTEGER_TAG).update (intToDecimal i)

def objecthash_i64 (i : Int) (hasher : Hasher) : Hasher :=
  (hasher.update INTEGER_TAG).update (intToDecimal i)

def objecthash_u8 (i : Int) (hasher : Hasher) : Hasher :=
  (hasher.update INTEGER_TAG).update (intToDecimal i)

def objecthash_u16 (i : Int) (hasher : Hasher) : Hasher :=
  (hasher.update INTEGER_TAG).update (intToDecimal i)

def objecthash_u32 (i : Int) (hasher : Hasher) : Hasher :=
  (hasher.update INTEGER_TAG).update (intToDecimal i)

def objecthash_u64 (i : Int) (hasher : Hasher) : Hasher :=
  (hasher.update INTEGER_TAG).update (intToDecimal i)

def objecthash_isize (i : Int) (hasher : Hasher) : Hasher :=
  (hasher.update INTEGER_TAG).update (intToDecimal i)

def objecthash_usize (i : Int) (hasher : Hasher) : Hasher :=
  (hasher.update INTEGER_TAG).update (intToDecimal i)

/-- The ten primitive integer types carrying an `impl_inttype!` instance. -/
inductive IntType
  | i8 | i16 | i32 | i64 | u8 | u16 | u32 | u64 | isize | usize
deriving DecidableEq

/-- The set of integer values representable in each primitive type. -/
def IntType.inRange : IntType → Int → Prop
  | .i8, v => -(2 ^ 7) ≤ v ∧ v < 2 ^ 7
  | .i16, v => -(2 ^ 15) ≤ v ∧ v < 2 ^ 15
  | .i32, v => -(2 ^ 31) ≤ v ∧ v < 2 ^ 31
  | .i64, v => -(2 ^ 63) ≤ v ∧ v < 2 ^ 63
  | .u8, v => 0 ≤ v ∧ v < 2 ^ 8
  | .u16, v => 0 ≤ v ∧ v < 2 ^ 16
  | .u32, v => 0 ≤ v ∧ v < 2 ^ 32
  | .u64, v => 0 ≤ v ∧ v < 2 ^ 64
  | .isize, v => -(2 ^ 63) ≤ v ∧ v < 2 ^ 63
  | .usize, v => 0 ≤ v ∧ v < 2 ^ 64

instance (t : IntType) (v : Int) : Decidable (t.inRange v) := by
  cases t <;> simp only [IntType.inRange] <;> infer_instance

/-- Dispatch to the `impl ObjectHash for $inttype` instance of a given type. -/
def IntType.objecthash : IntType → Int → Hasher → Hasher
  | .i8 => objecthash_i8
  | .i16 => objecthash_i16
  | .i32 => objecthash_i32
  | .i64 => objecthash_i64
  | .u8 => objecthash_u8
  | .u16 => objecthash_u16
  | .u32 => objecthash_u32
  | .u64 => objecthash_u64
  | .isize => objecthash_isize
  | .usize => objecthash_usize

/-! ### Decoding decimal ASCII, for stating minimality of the encoding -/

/-- Value denoted by a big-endian string of decimal ASCII digit bytes. -/
def decodeDecimal (ds : List Nat) : Nat :=
  ds.foldl (fun acc d => 10 * acc + (d - 48)) 0

/-! ### HashableValue trees and the recursive dispatch

A closed tagged union over the kinds the baseline crate implements: integers,
text, sequences (`Vec`), and mappings (`HashMap`, given by the pair list its
iterator enumerates).  `Enc` computes the transcript of bytes that the
recursive dispatch of `src/types.rs` absorbs into a fresh hasher for a tree:
each case is the corresponding `impl ObjectHash` body read through the hasher
semantics above. -/

inductive HV
  | int (i : Int)
  | text (s : List Nat)
  | seq (l : List HV)
  | map (entries : List (HV × HV))

mutual

/-- Transcript absorbed into a fresh hasher when hashing a `HV` tree. -/
def Enc (D nfc : List Nat → List Nat) : HV → List Nat
  | .int i => INTEGER_TAG ++ intToDecimal i
  | .text s => STRING_TAG ++ nfc s
  | .seq l => LIST_TAG ++ EncSeq D nfc l
  | .map es => DICT_TAG ++ ((EncEntries D nfc es).insertionSort byteLe).flatten

/-- Bytes the `Vec` impl absorbs after its tag: one nested digest per
element, in order. -/
def EncSeq (D nfc : List Nat → List Nat) : List HV → List Nat
  | [] => []
  | v :: rest => D (Enc D nfc v) ++ EncSeq D nfc rest

/-- The entry digests of a mapping, one per `(key, value)` pair in iteration
order, each per the `objecthash_member!` discipline. -/
def EncEntries (D nfc : List Nat → List Nat) : List (HV × HV) → List (List Nat)
  | [] => []
  | (k, v) :: rest => D (D (Enc D nfc k) ++ D (Enc D nfc v)) :: EncEntries D nfc rest

end

mutual

/-- Fuel-limited evaluator for `Enc`: recursion depth is bounded by `fuel`
and exhaustion reports `none`, modelling a run of the recursive dispatch that
is only allowed a finite call depth. -/
def EncF (D nfc : List Nat → List Nat) : Nat → HV → Option (List Nat)
  | 0, _ => none
  | _ + 1, .int i => some (INTEGER_TAG ++ intToDecimal i)
  | _ + 1, .text s => some (STRING_TAG ++ nfc s)
  | fuel + 1, .seq l => (EncFSeq D nfc fuel l).map (fun bs => LIST_TAG ++ bs)
  | fuel + 1, .map es =>
    (EncFEntries D nfc fuel es).map
      (fun ds => DICT_TAG ++ (ds.insertionSort byteLe).flatten)

def EncFSeq (D nfc : List Nat → List Nat) (fuel : Nat) : List HV → Option (List Nat)
  | [] => some []
  | v :: rest => do
    let d ← EncF D nfc fuel v
    let ds ← EncFSeq D nfc fuel rest
    pure (D d ++ ds)

def EncFEntries (D nfc : List Nat → List Nat) (fuel : Nat) :
    List (HV × HV) → Option (List (List Nat))
  | [] => some []
  | (k, v) :: rest => do
    let dk ← EncF D nfc fuel k
    let dv ← EncF D nfc fuel v
    let ds ← EncFEntries D nfc fuel rest
    pure (D (D dk ++ D dv) :: ds)

end


/-! ## Theorems -/

theorem decDigitsAux_eq_digits :
    ∀ fuel n, n ≤ fuel → decDigitsAux fuel n = Nat.digits 10 n := by
  intro fuel
  induction fuel with
  | zero =>
    intro n hn
    interval_cases n
    simp [decDigitsAux]
  | succ f ih =>
    intro n hn
    match n with
    | 0 => simp [decDigitsAux]
    | m + 1 =>
      rw [decDigitsAux, Nat.digits_def' (by norm_num : (1:Nat) < 10) (Nat.succ_pos m)]
      congr 1
      exact ih _ (Nat.lt_succ_iff.mp
        (Nat.lt_of_lt_of_le (Nat.div_lt_self (Nat.succ_pos m) (by norm_num)) hn))

/-- `decDigits` agrees with Mathlib's `Nat.digits` in base 10. -/
theorem decDigits_eq_digits (n : Nat) : decDigits n = Nat.digits 10 n :=
  decDigitsAux_eq_digits n n (Nat.le_refl n)

theorem decodeDecimal_foldl (L : List Nat) :
    ∀ acc, List.foldl (fun acc d => 10 * acc + (d - 48)) acc ((L.map (· + 48)).reverse)
      = acc * 10 ^ L.length + Nat.ofDigits 10 L := by
  induction L with
  | nil => intro acc; simp [Nat.ofDigits]
  | cons d L ih =>
    intro acc
    rw [List.map_cons, List.reverse_cons, List.foldl_append, ih acc]
    simp only [List.foldl_cons, List.foldl_nil, Nat.ofDigits_cons, List.length_cons,
      Nat.add_sub_cancel]
    ring

/-- Decoding is a left inverse of `natToDecimal`: the emitted digits denote
exactly the encoded number. -/
theorem decodeDecimal_natToDecimal (n : Nat) : decodeDecimal (natToDecimal n) = n := by
  by_cases hn : n = 0
  · subst hn; rfl
  · unfold natToDecimal decodeDecimal
    rw [if_neg hn, decodeDecimal_foldl, decDigits_eq_digits, Nat.ofDigits_digits]
    simp

/-- The encoding of a positive number has no leading zero byte. -/
theorem natToDecimal_head_ne_zero (n : Nat) (hn : n ≠ 0) :
    (natToDecimal n).head? ≠ some 48 := by
  unfold natToDecimal
  have hne : Nat.digits 10 n ≠ [] := Nat.digits_ne_nil_iff_ne_zero.mpr hn
  have hlast : (Nat.digits 10 n).getLast hne ≠ 0 := Nat.getLast_digit_ne_zero 10 hn
  rw [if_neg hn, List.head?_reverse, decDigits_eq_digits, List.getLast?_map,
    List.getLast?_eq_getLast _ hne]
  simp only [Option.map_some', ne_eq, Option.some.injEq]
  omega

/-- Every byte of `natToDecimal n` is a decimal ASCII digit. -/
theorem natToDecimal_digits (n : Nat) : ∀ d ∈ natToDecimal n, 48 ≤ d ∧ d ≤ 57 := by
  intro d hd
  unfold natToDecimal at hd
  by_cases hn : n = 0
  · rw [if_pos hn] at hd
    simp only [List.mem_singleton] at hd
    omega
  · rw [if_neg hn, List.mem_reverse, List.mem_map, decDigits_eq_digits] at hd
    obtain ⟨x, hx, rfl⟩ := hd
    have := Nat.digits_lt_base (by norm_num) hx
    omega


/-! ### Transcript lemmas for the hasher and the composite encoders -/

theorem update_absorbed (h : Hasher) (bs : List Nat) :
    (h.update bs).absorbed = h.absorbed ++ bs := rfl

theorem foldl_update_absorbed :
    ∀ (ds : List (List Nat)) (h : Hasher),
      (ds.foldl (fun h d => h.update d) h).absorbed = h.absorbed ++ ds.flatten := by
  intro ds
  induction ds with
  | nil => intro h; simp
  | cons d ds ih =>
    intro h
    rw [List.foldl_cons, ih, update_absorbed, List.flatten_cons, List.append_assoc]

theorem foldl_updateNested_absorbed (D : List Nat → List Nat)
    (elem : α → Hasher → Hasher) :
    ∀ (l : List α) (h : Hasher),
      (l.foldl (fun h v => h.updateNested D (fun hh => elem v hh)) h).absorbed
        = h.absorbed ++ (l.map fun v => D ((elem v Hasher.init).absorbed)).flatten := by
  intro l
  induction l with
  | nil => intro h; simp
  | cons v l ih =>
    intro h
    rw [List.foldl_cons, ih, List.map_cons, List.flatten_cons]
    simp only [Hasher.updateNested, Hasher.finish, update_absorbed, List.append_assoc]

/-- Transcript of the `Vec` impl: the list tag, then the fixed-length digest
of each element's own encoding, in element order. -/
theorem objecthash_vec_absorbed (D : List Nat → List Nat)
    (elem : α → Hasher → Hasher) (l : List α) (hasher : Hasher) :
    (objecthash_vec D elem l hasher).absorbed
      = hasher.absorbed ++ LIST_TAG
        ++ (l.map fun v => D ((elem v Hasher.init).absorbed)).flatten := by
  unfold objecthash_vec
  rw [foldl_updateNested_absorbed, update_absorbed, List.append_assoc]

/-- The entry digest is the digest of the two nested digests of key and
value. -/
theorem objecthash_member_eq (D : List Nat → List Nat) (ek : κ → Hasher → Hasher)
    (ev : ν → Hasher → Hasher) (k : κ) (v : ν) :
    objecthash_member D ek ev k v
      = D (D ((ek k Hasher.init).absorbed) ++ D ((ev v Hasher.init).absorbed)) := rfl

/-- Transcript of the `HashMap` impl: the dict tag, then the concatenation of
the sorted entry digests. -/
theorem objecthash_hashmap_absorbed (D : List Nat → List Nat)
    (ek : κ → Hasher → Hasher) (ev : ν → Hasher → Hasher)
    (entries : List (κ × ν)) (hasher : Hasher) :
    (objecthash_hashmap D ek ev entries hasher).absorbed
      = hasher.absorbed ++ DICT_TAG
        ++ ((entries.map fun p => objecthash_member D ek ev p.1 p.2).insertionSort
              byteLe).flatten := by
  unfold objecthash_hashmap
  rw [foldl_update_absorbed, update_absorbed, List.append_assoc]

/-- Sorting under `byteLe` sends permuted inputs to the same output: the
sorted list is the unique `byteLe`-sorted permutation. -/
theorem insertionSort_eq_of_perm {l1 l2 : List (List Nat)} (hp : l1.Perm l2) :
    l1.insertionSort byteLe = l2.insertionSort byteLe :=
  List.eq_of_perm_of_sorted
    (((List.perm_insertionSort byteLe l1).trans hp).trans
      (List.perm_insertionSort byteLe l2).symm)
    (List.sorted_insertionSort byteLe l1) (List.sorted_insertionSort byteLe l2)

/-! ### Claim theorems -/

/-- C3: Integer width invariance — for every integer value representable in the
ranges of two of the implemented primitive types (i8, i16, i32, i64, u8, u16,
u32, u64, isize, usize), applying the two types' `objecthash` impls to the
value leaves any hasher in identical states (identical absorbed byte
sequences), hence all representations yield the same digest. -/
theorem int_width_invariance (D : List Nat → List Nat) (t1 t2 : IntType) (v : Int)
    (h1 : t1.inRange v) (h2 : t2.inRange v) (hasher : Hasher) :
    t1.objecthash v hasher = t2.objecthash v hasher
    ∧ (t1.objecthash v hasher).finish D = (t2.objecthash v hasher).finish D := by
  have heq : t1.objecthash v hasher = t2.objecthash v hasher := by
    cases t1 <;> cases t2 <;> rfl
  exact ⟨heq, by rw [heq]⟩

/-- Witness for C3: `-1` is representable as `i8` and as `i64`, and both
impls hash it identically. -/
theorem int_width_invariance_witness :
    IntType.objecthash .i8 (-1) Hasher.init = IntType.objecthash .i64 (-1) Hasher.init
    ∧ (IntType.objecthash .i8 (-1) Hasher.init).finish (fun bs => bs)
        = (IntType.objecthash .i64 (-1) Hasher.init).finish (fun bs => bs) :=
  int_width_invariance (fun bs => bs) .i8 .i64 (-1) (by decide) (by decide) Hasher.init

/-- C4: Integer canonical encoding — hashing an integer absorbs exactly the
one-byte tag `'i' = 105` followed by the minimal decimal ASCII representation
of the value: decimal digit bytes that decode back to the value, no leading
zero byte, a leading `'-' = 45` exactly when the value is negative, and the
single byte `'0' = 48` for zero. -/
theorem int_canonical_encoding (i : Int) (hasher : Hasher) :
    (objecthash_int i hasher).absorbed = hasher.absorbed ++ [105] ++ intToDecimal i
    ∧ (i = 0 → intToDecimal i = [48])
    ∧ (0 < i → (intToDecimal i).head? ≠ some 48
        ∧ (∀ d ∈ intToDecimal i, 48 ≤ d ∧ d ≤ 57)
        ∧ (decodeDecimal (intToDecimal i) : Int) = i)
    ∧ (i < 0 → ∃ ds, intToDecimal i = 45 :: ds ∧ ds.head? ≠ some 48
        ∧ (∀ d ∈ ds, 48 ≤ d ∧ d ≤ 57) ∧ (decodeDecimal ds : Int) = -i) := by
  refine ⟨rfl, ?_, ?_, ?_⟩
  · intro h0
    subst h0
    rfl
  · intro hp
    have hne : ¬i < 0 := by omega
    have habs : i.natAbs ≠ 0 := by omega
    rw [intToDecimal, if_neg hne]
    refine ⟨natToDecimal_head_ne_zero _ habs, natToDecimal_digits _, ?_⟩
    rw [decodeDecimal_natToDecimal]
    omega
  · intro hneg
    refine ⟨natToDecimal i.natAbs, ?_, ?_, natToDecimal_digits _, ?_⟩
    · rw [intToDecimal, if_pos hneg]
    · exact natToDecimal_head_ne_zero _ (by omega)
    · rw [decodeDecimal_natToDecimal]
      omega

/-- Witness for C4: the value `-10` is encoded as `i-10` (bytes
`105, 45, 49, 48`), whose digit part decodes back to `10`. -/
theorem int_canonical_encoding_witness :
    intToDecimal (-10) = [45, 49, 48]
    ∧ (objecthash_int (-10) Hasher.init).absorbed = [] ++ [105] ++ intToDecimal (-10)
    ∧ (∃ ds, intToDecimal (-10) = 45 :: ds ∧ ds.head? ≠ some 48
        ∧ (∀ d ∈ ds, 48 ≤ d ∧ d ≤ 57) ∧ (decodeDecimal ds : Int) = -(-10)) :=
  ⟨by decide, (int_canonical_encoding (-10) Hasher.init).1,
    (int_canonical_encoding (-10) Hasher.init).2.2.2 (by decide)⟩

/-- C5: Unicode equivalence — hashing a string absorbs the one-byte tag
`'u' = 117` followed by the bytes of the NFC-normalized form; two strings that
normalize identically absorb identical byte sequences and yield the same
digest. -/
theorem str_unicode_equivalence (D nfc : List Nat → List Nat) (s1 s2 : List Nat)
    (hasher : Hasher) (heq : nfc s1 = nfc s2) :
    (objecthash_str nfc s1 hasher).absorbed = hasher.absorbed ++ [117] ++ nfc s1
    ∧ (objecthash_str nfc s2 hasher).absorbed = hasher.absorbed ++ [117] ++ nfc s2
    ∧ objecthash_str nfc s1 hasher = objecthash_str nfc s2 hasher
    ∧ (objecthash_str nfc s1 hasher).finish D = (objecthash_str nfc s2 hasher).finish D := by
  have hst : objecthash_str nfc s1 hasher = objecthash_str nfc s2 hasher := by
    unfold objecthash_str
    rw [heq]
  exact ⟨rfl, rfl, hst, by rw [hst]⟩

/-- Witness for C5: under a normalizer sending both `[1]` and `[2]` to `[7]`,
the two distinct strings hash to identical states. -/
theorem str_unicode_equivalence_witness :
    objecthash_str (fun _ => [7]) [1] Hasher.init
      = objecthash_str (fun _ => [7]) [2] Hasher.init :=
  (str_unicode_equivalence (fun bs => bs) (fun _ => [7]) [1] [2] Hasher.init rfl).2.2.1

/-- C6: Sequence encoding — hashing a `Vec` absorbs the one-byte tag
`'l' = 108`, then for each element in list order the fixed-length digest of
that element's full encoding (one nested absorb per element); the empty `Vec`
absorbs only the tag. -/
theorem vec_encoding {α : Type} (D : List Nat → List Nat) (elem : α → Hasher → Hasher)
    (l : List α) (hasher : Hasher) (n : Nat) (hD : ∀ bs, (D bs).length = n) :
    (objecthash_vec D elem l hasher).absorbed
      = hasher.absorbed ++ [108]
        ++ (l.map fun v => D ((elem v Hasher.init).absorbed)).flatten
    ∧ (∀ v ∈ l, (D ((elem v Hasher.init).absorbed)).length = n)
    ∧ (objecthash_vec D elem ([] : List α) hasher).absorbed
        = hasher.absorbed ++ [108] := by
  refine ⟨objecthash_vec_absorbed D elem l hasher, fun v _ => hD _, ?_⟩
  rw [objecthash_vec_absorbed]
  simp [LIST_TAG]

/-- Witness for C6: a two-element sequence under a one-byte digest primitive
absorbs the tag and the two child digests in order. -/
theorem vec_encoding_witness :
    (objecthash_vec (fun bs => [bs.length]) (fun (v : Nat) h => h.update [v])
        [5, 6] Hasher.init).absorbed = [108, 1, 1] := by
  have h := (vec_encoding (fun bs => [bs.length]) (fun (v : Nat) h => h.update [v])
    [5, 6] Hasher.init 1 (fun bs => rfl)).1
  rw [h]
  rfl

/-- C10: the `str` impl and the `String` impl have identical bodies: on the
same textual content they produce identical hasher states, hence identical
absorbed bytes and the same digest. -/
theorem str_string_agree (nfc : List Nat → List Nat) (s : List Nat) (hasher : Hasher) :
    objecthash_str nfc s hasher = objecthash_string nfc s hasher
    ∧ (objecthash_str nfc s hasher).absorbed
        = (objecthash_string nfc s hasher).absorbed :=
  ⟨rfl, rfl⟩

/-- C1: Mapping order insensitivity — two `HashMap`s containing exactly the
same set of (key, value) pairs (the iteration sequences are duplicate-free
and have the same members, in whatever order) absorb identical byte sequences
into the hasher and yield the same digest. -/
theorem hashmap_order_insensitivity (D : List Nat → List Nat)
    (ek : κ → Hasher → Hasher) (ev : ν → Hasher → Hasher)
    (e1 e2 : List (κ × ν)) (hasher : Hasher)
    (h1 : e1.Nodup) (h2 : e2.Nodup) (hset : ∀ p, p ∈ e1 ↔ p ∈ e2) :
    (objecthash_hashmap D ek ev e1 hasher).absorbed
      = (objecthash_hashmap D ek ev e2 hasher).absorbed
    ∧ (objecthash_hashmap D ek ev e1 hasher).finish D
      = (objecthash_hashmap D ek ev e2 hasher).finish D := by
  have hperm : e1.Perm e2 := (List.perm_ext_iff_of_nodup h1 h2).mpr hset
  have hd : (e1.map fun p => objecthash_member D ek ev p.1 p.2).Perm
      (e2.map fun p => objecthash_member D ek ev p.1 p.2) := hperm.map _
  have hsort := insertionSort_eq_of_perm hd
  have habs : (objecthash_hashmap D ek ev e1 hasher).absorbed
      = (objecthash_hashmap D ek ev e2 hasher).absorbed := by
    rw [objecthash_hashmap_absorbed, objecthash_hashmap_absorbed, hsort]
  exact ⟨habs, by unfold Hasher.finish; rw [habs]⟩

/-- Witness for C1: the maps `{1 ↦ 2, 3 ↦ 4}` enumerated in the two opposite
orders hash to the same absorbed bytes. -/
theorem hashmap_order_insensitivity_witness :
    (objecthash_hashmap (fun bs => bs) (fun (k : Nat) h => h.update [k])
        (fun (v : Nat) h => h.update [v]) [(1, 2), (3, 4)] Hasher.init).absorbed
      = (objecthash_hashmap (fun bs => bs) (fun (k : Nat) h => h.update [k])
        (fun (v : Nat) h => h.update [v]) [(3, 4), (1, 2)] Hasher.init).absorbed :=
  (hashmap_order_insensitivity (fun bs => bs) (fun (k : Nat) h => h.update [k])
    (fun (v : Nat) h => h.update [v]) [(1, 2), (3, 4)] [(3, 4), (1, 2)] Hasher.init
    (by decide) (by decide)
    (by intro p; simp only [List.mem_cons, List.not_mem_nil, or_false]; tauto)).1

/-- C2: Mapping encoding algorithm — hashing a `HashMap` absorbs the one-byte
tag `'d' = 100`, then the entry digests (one fixed-length digest per entry),
sorted by raw byte values under unsigned lexicographic comparison, each
absorbed directly (raw, not re-nested): the absorbed transcript is the tag
followed by the concatenation of a `byteLe`-sorted permutation of the entry
digests; an empty mapping absorbs only the tag. -/
theorem hashmap_encoding (D : List Nat → List Nat) (ek : κ → Hasher → Hasher)
    (ev : ν → Hasher → Hasher) (entries : List (κ × ν)) (hasher : Hasher)
    (n : Nat) (hD : ∀ bs, (D bs).length = n) :
    ∃ ds : List (List Nat),
      ds.Perm (entries.map fun p => objecthash_member D ek ev p.1 p.2)
      ∧ List.Sorted byteLe ds
      ∧ (∀ d ∈ ds, d.length = n)
      ∧ (objecthash_hashmap D ek ev entries hasher).absorbed
          = hasher.absorbed ++ [100] ++ ds.flatten
      ∧ (objecthash_hashmap D ek ev ([] : List (κ × ν)) hasher).absorbed
          = hasher.absorbed ++ [100] := by
  refine ⟨(entries.map fun p => objecthash_member D ek ev p.1 p.2).insertionSort byteLe,
    List.perm_insertionSort _ _, List.sorted_insertionSort _ _, ?_, ?_, ?_⟩
  · intro d hd
    have hmem : d ∈ entries.map fun p => objecthash_member D ek ev p.1 p.2 :=
      (List.perm_insertionSort byteLe _).mem_iff.mp hd
    obtain ⟨p, _, rfl⟩ := List.mem_map.mp hmem
    rw [objecthash_member_eq]
    exact hD _
  · exact objecthash_hashmap_absorbed D ek ev entries hasher
  · rw [objecthash_hashmap_absorbed]
    simp [DICT_TAG]

/-- Witness for C2: a one-entry map under a one-byte digest primitive absorbs
the tag followed by the single entry digest. -/
theorem hashmap_encoding_witness :
    (objecthash_hashmap (fun bs => [bs.length]) (fun (k : Nat) h => h.update [k])
        (fun (v : Nat) h => h.update [v]) [(1, 2)] Hasher.init).absorbed = [100, 2] := by
  obtain ⟨ds, hperm, hsort, hlen, habs, hempty⟩ :=
    hashmap_encoding (fun bs => [bs.length]) (fun (k : Nat) h => h.update [k])
      (fun (v : Nat) h => h.update [v]) [(1, 2)] Hasher.init 1 (fun bs => rfl)
  have hds : ds = [[2]] := List.perm_singleton.mp hperm
  rw [habs, hds]
  rfl

/-- C8: Determinism — the absorbed byte sequence of a `HashMap` does not
depend on the order in which `self.iter()` happens to enumerate the entries:
any two enumeration orders (permutations of the same entries) leave the
hasher in states with identical absorbed bytes and identical digests, because
the sort of the entry digests removes the iteration-order nondeterminism. -/
theorem hashmap_deterministic (D : List Nat → List Nat)
    (ek : κ → Hasher → Hasher) (ev : ν → Hasher → Hasher)
    (e1 e2 : List (κ × ν)) (hasher : Hasher) (hiter : e1.Perm e2) :
    (objecthash_hashmap D ek ev e1 hasher).absorbed
      = (objecthash_hashmap D ek ev e2 hasher).absorbed
    ∧ (objecthash_hashmap D ek ev e1 hasher).finish D
      = (objecthash_hashmap D ek ev e2 hasher).finish D := by
  have hsort := insertionSort_eq_of_perm
    (hiter.map fun p => objecthash_member D ek ev p.1 p.2)
  have habs : (objecthash_hashmap D ek ev e1 hasher).absorbed
      = (objecthash_hashmap D ek ev e2 hasher).absorbed := by
    rw [objecthash_hashmap_absorbed, objecthash_hashmap_absorbed, hsort]
  exact ⟨habs, by unfold Hasher.finish; rw [habs]⟩

/-- Witness for C8: a three-entry map enumerated in two different orders
yields the same digest. -/
theorem hashmap_deterministic_witness :
    (objecthash_hashmap (fun bs => [bs.length]) (fun (k : Nat) h => h.update [k])
        (fun (v : Nat) h => h.update [v]) [(1, 2), (3, 4), (5, 6)]
        Hasher.init).finish (fun bs => [bs.length])
      = (objecthash_hashmap (fun bs => [bs.length]) (fun (k : Nat) h => h.update [k])
        (fun (v : Nat) h => h.update [v]) [(5, 6), (1, 2), (3, 4)]
        Hasher.init).finish (fun bs => [bs.length]) :=
  (hashmap_deterministic (fun bs => [bs.length]) (fun (k : Nat) h => h.update [k])
    (fun (v : Nat) h => h.update [v]) [(1, 2), (3, 4), (5, 6)] [(5, 6), (1, 2), (3, 4)]
    Hasher.init (by decide)).2

/-- C7: Structural distinctness — the empty sequence, the empty mapping, the
integer `0`, and the empty string absorb the pairwise distinct byte streams
`l`, `d`, `i0`, `u` into a fresh hasher. -/
theorem structural_distinctness {α κ ν : Type} (D : List Nat → List Nat)
    (elem : α → Hasher → Hasher) (ek : κ → Hasher → Hasher)
    (ev : ν → Hasher → Hasher) (nfc : List Nat → List Nat) (hnfc : nfc [] = []) :
    (objecthash_vec D elem ([] : List α) Hasher.init).absorbed = [108]
    ∧ (objecthash_hashmap D ek ev ([] : List (κ × ν)) Hasher.init).absorbed = [100]
    ∧ (objecthash_int 0 Hasher.init).absorbed = [105, 48]
    ∧ (objecthash_str nfc [] Hasher.init).absorbed = [117]
    ∧ List.Pairwise (· ≠ ·)
        [(objecthash_vec D elem ([] : List α) Hasher.init).absorbed,
         (objecthash_hashmap D ek ev ([] : List (κ × ν)) Hasher.init).absorbed,
         (objecthash_int 0 Hasher.init).absorbed,
         (objecthash_str nfc [] Hasher.init).absorbed] := by
  have h4 : (objecthash_str nfc [] Hasher.init).absorbed = [117] := by
    show ([] : List Nat) ++ [117] ++ nfc [] = [117]
    rw [hnfc]
    rfl
  refine ⟨rfl, rfl, rfl, h4, ?_⟩
  rw [h4]
  show List.Pairwise (· ≠ ·) ([[108], [100], [105, 48], [117]] : List (List Nat))
  decide

/-- Witness for C7: the four empty/zero values at concrete instantiations
absorb pairwise distinct byte streams. -/
theorem structural_distinctness_witness :
    List.Pairwise (· ≠ ·)
      [(objecthash_vec (fun bs => bs) (fun (_ : Nat) h => h) ([] : List Nat)
          Hasher.init).absorbed,
       (objecthash_hashmap (fun bs => bs) (fun (_ : Nat) h => h) (fun (_ : Nat) h => h)
          ([] : List (Nat × Nat)) Hasher.init).absorbed,
       (objecthash_int 0 Hasher.init).absorbed,
       (objecthash_str (fun s => s) [] Hasher.init).absorbed] :=
  (structural_distinctness (fun bs => bs) (fun (_ : Nat) h => h) (fun (_ : Nat) h => h)
    (fun (_ : Nat) h => h) (fun s => s) rfl).2.2.2.2

/-! ### Totality and termination of the recursive dispatch (C9) -/

theorem EncFSeq_adequate (D nfc : List Nat → List Nat) (fuel : Nat) :
    ∀ l : List HV, (∀ v ∈ l, EncF D nfc fuel v = some (Enc D nfc v)) →
      EncFSeq D nfc fuel l = some (EncSeq D nfc l) := by
  intro l
  induction l with
  | nil => intro _; rfl
  | cons v rest ih =>
    intro hv
    simp only [EncFSeq, EncSeq]
    rw [hv v (List.mem_cons_self v rest), ih (fun x hx => hv x (List.mem_cons_of_mem v hx))]
    rfl

theorem EncFEntries_adequate (D nfc : List Nat → List Nat) (fuel : Nat) :
    ∀ es : List (HV × HV),
      (∀ p ∈ es, EncF D nfc fuel p.1 = some (Enc D nfc p.1)
        ∧ EncF D nfc fuel p.2 = some (Enc D nfc p.2)) →
      EncFEntries D nfc fuel es = some (EncEntries D nfc es) := by
  intro es
  induction es with
  | nil => intro _; rfl
  | cons p rest ih =>
    intro hp
    obtain ⟨k, v⟩ := p
    have h1 := (hp (k, v) (List.mem_cons_self _ _)).1
    have h2 := (hp (k, v) (List.mem_cons_self _ _)).2
    simp only [EncFEntries, EncEntries]
    rw [h1, h2, ih (fun x hx => hp x (List.mem_cons_of_mem _ hx))]
    rfl

theorem EncF_adequate (D nfc : List Nat → List Nat) :
    ∀ (fuel : Nat) (v : HV), sizeOf v ≤ fuel → EncF D nfc fuel v = some (Enc D nfc v) := by
  intro fuel
  induction fuel using Nat.strong_induction_on with
  | _ fuel ih =>
    intro v hv
    cases fuel with
    | zero =>
      exfalso
      have h1 : 1 ≤ sizeOf v := by cases v <;> simp
      omega
    | succ f =>
      cases v with
      | int i => simp [EncF, Enc]
      | text s => simp [EncF, Enc]
      | seq l =>
        have hsz : sizeOf (HV.seq l) = 1 + sizeOf l := by simp
        have hl : ∀ x ∈ l, EncF D nfc f x = some (Enc D nfc x) := by
          intro x hx
          have hx1 : sizeOf x < sizeOf l := List.sizeOf_lt_of_mem hx
          exact ih f (Nat.lt_succ_self f) x (by omega)
        simp only [EncF, Enc]
        rw [EncFSeq_adequate D nfc f l hl]
        rfl
      | map es =>
        have hsz : sizeOf (HV.map es) = 1 + sizeOf es := by simp
        have hes : ∀ p ∈ es, EncF D nfc f p.1 = some (Enc D nfc p.1)
            ∧ EncF D nfc f p.2 = some (Enc D nfc p.2) := by
          intro p hp
          obtain ⟨k, w⟩ := p
          have hp1 : sizeOf (k, w) < sizeOf es := List.sizeOf_lt_of_mem hp
          have hp3 : sizeOf (k, w) = 1 + sizeOf k + sizeOf w := by simp
          exact ⟨ih f (Nat.lt_succ_self f) k (by omega),
            ih f (Nat.lt_succ_self f) w (by omega)⟩
        simp only [EncF, Enc]
        rw [EncFEntries_adequate D nfc f es hes]
        rfl

/-- C9: Totality and termination — `Enc`, the recursive dispatch over a
well-formed `HV` tree (any finite nesting of integers, strings, sequences and
mappings), is a total function into byte transcripts; the fuel-limited
evaluator `EncF` never exhausts its fuel nor fails on any tree whose size is
within fuel: it returns `some (Enc D nfc v)`, so the recursion into sequence
elements and mapping entries terminates with a result and no error. -/
theorem objecthash_total (D nfc : List Nat → List Nat) (v : HV) (fuel : Nat)
    (hfuel : sizeOf v ≤ fuel) :
    EncF D nfc fuel v = some (Enc D nfc v) :=
  EncF_adequate D nfc fuel v hfuel

/-- Witness for C9: a concrete nested tree (a mapping whose value is a
sequence holding a string) is fully evaluated within fuel 20. -/
theorem objecthash_total_witness :
    EncF (fun bs => [bs.length]) (fun s => s) 20
        (HV.map [(HV.int 1, HV.seq [HV.text []])])
      = some (Enc (fun bs => [bs.length]) (fun s => s)
        (HV.map [(HV.int 1, HV.seq [HV.text []])])) :=
  objecthash_total (fun bs => [bs.length]) (fun s => s)
    (HV.map [(HV.int 1, HV.seq [HV.text []])]) 20 (by decide)


end ObjectHash
